import Mathlib

/-!
Verification of the Xrbfetch ambiguity-resolution and deduplication pipeline.

The definitions below are a shallow embedding of the pure core of the
repository's Python modules:

* `data.py`    — `reverse_json_ambi`, `get_most_read_or_features`,
  `solve_ambiguous_preps`, `merge_read_features_counts`, `filter_reads`,
  `update_sample_name`;
* `duplicates.py` — `add_edit_and_working_sample_name`,
  `keep_the_best_host_subject_id_sample`,
  `keep_the_best_root_sample_name_sample`, `remove_duplicates`;
* `simple.py`  — the minimum-read filter of `run_simple`;
* `checks.py` / `io.py` — the stop condition of `potential_stop` and the
  scratch-file paths used by `delete_files` and
  `read_json_ambiguities_file`.

A biom feature table is modelled column-major: a list of observation ids
together with one `(sample id, counts)` column per sample, counts aligned
with the observation list.  Pandas data frames are modelled as lists of
records.  Python `int(...)` string parsing and `str.isdigit` are modelled
explicitly where the code relies on them.
-/

namespace Xrbfetch

/-! ### String helpers used throughout the source -/

/-- Splitting accumulator for `splitDot`. -/
def splitDotAux : List Char → List Char → List (List Char)
  | [], acc => [acc.reverse]
  | c :: rest, acc =>
    if c = '.' then acc.reverse :: splitDotAux rest []
    else splitDotAux rest (c :: acc)

/-- Python `s.split('.')`. -/
def splitDot (s : String) : List String :=
  (splitDotAux s.toList []).map (fun l => ⟨l⟩)

/-- Join segments with dots (inverse of `splitDot` on its output). -/
def joinDot (ls : List String) : String :=
  ⟨List.intercalate ['.'] (ls.map String.toList)⟩

/-- Python `s.rsplit('.', 1)[0]`: everything before the last dot, or the
whole string when it has no dot. -/
def rsplitRoot (s : String) : String :=
  let segs := splitDot s
  if segs.length ≤ 1 then s else joinDot segs.dropLast

/-- Python `s.split('.')[-1]`: the segment after the last dot. -/
def lastSeg (s : String) : String :=
  (splitDot s).getLastD ""

/-- Python `str.isdigit` (restricted to ASCII, as used by the source). -/
def pyIsDigit (s : String) : Bool :=
  !s.toList.isEmpty && s.toList.all Char.isDigit

/-- Whitespace characters stripped by Python `int(str)`. -/
def isPySpace (c : Char) : Bool :=
  c = ' ' || c = '\t' || c = '\n' || c = '\r' || c = '\x0b' || c = '\x0c'

/-- Digit run of a Python integer literal, after its first digit: digits,
with single underscores allowed between digits (an underscore must be
followed by a digit, so no trailing and no doubled underscore). -/
def pyDigitsAux : Nat → List Char → Option Nat
  | acc, [] => some acc
  | acc, c :: rest =>
    if c.isDigit then pyDigitsAux (10 * acc + (c.toNat - 48)) rest
    else if c = '_' then
      if (rest.headD '_').isDigit then pyDigitsAux acc rest else none
    else none

/-- Value of a nonempty digit run (first character must be a digit). -/
def pyDigitsVal : List Char → Option Nat
  | [] => none
  | c :: rest => if c.isDigit then pyDigitsAux (c.toNat - 48) rest else none

/-- Strip the surrounding whitespace accepted by Python `int(str)`. -/
def pyStrip (cs : List Char) : List Char :=
  ((cs.dropWhile isPySpace).reverse.dropWhile isPySpace).reverse

/-- Python `int(s)` on a decimal string: optional surrounding whitespace,
optional sign, then digits with single underscores between digits.
`none` models the `ValueError` raised on malformed input. -/
def pyInt (s : String) : Option Int :=
  match pyStrip s.toList with
  | [] => none
  | c :: rest =>
    if c = '+' then (pyDigitsVal rest).map Int.ofNat
    else if c = '-' then (pyDigitsVal rest).map (fun n => -(Int.ofNat n))
    else (pyDigitsVal (c :: rest)).map Int.ofNat

/-! ### The biom feature table -/

/-- Column-major biom table: observation ids plus one `(sample id, counts)`
column per sample; each column's counts are aligned with `obs`. -/
structure BiomTable where
  obs : List String
  cols : List (String × List Nat)
deriving Repr, DecidableEq

/-- Model of `biom.Table.ids` on the sample axis. -/
def sampleIds (t : BiomTable) : List String :=
  t.cols.map Prod.fst

/-- Model of `biom.Table.filter` with `ids_to_keep` on the sample axis: keep the columns whose
sample id is in the list, in table order. -/
def filterSamples (t : BiomTable) (keep : List String) : BiomTable :=
  { t with cols := t.cols.filter (fun c => keep.contains c.1) }

/-- The observation indices with a nonzero entry in some column. -/
def keepIdxs (t : BiomTable) : List Nat :=
  (List.range t.obs.length).filter
    (fun j => t.cols.any (fun c => c.2.getD j 0 != 0))

/-- Model of `biom.Table.remove_empty` on the observation axis: drop every observation
whose count is zero in every remaining sample. -/
def removeEmptyObs (t : BiomTable) : BiomTable :=
  { obs := (keepIdxs t).map (fun j => t.obs.getD j ""),
    cols := t.cols.map (fun c => (c.1, (keepIdxs t).map (fun j => c.2.getD j 0))) }

/-- Per-sample read count: `biom.Table.sum(axis='sample')` for one column. -/
def colSum (xs : List Nat) : Nat := xs.sum

end Xrbfetch

namespace Xrbfetch

/-! ### `data.py`: ambiguity resolution -/

/-- Append `k` to the group of `v`, creating the group at the end when `v`
is new (the behaviour of `dict.setdefault(v, []).append(k)`). -/
def addToGroup : List (String × List String) → String → String → List (String × List String)
  | [], v, k => [(v, [k])]
  | (v', ks) :: rest, v, k =>
    if v' = v then (v', ks ++ [k]) :: rest else (v', ks) :: addToGroup rest v k

/-- Model of `reverse_json_ambi` (`data.py`): invert the ambiguity map, keeping only
keys present among the table's sample ids. -/
def reverse_json_ambi (json_ambi : List (String × String)) (ids : List String) :
    List (String × List String) :=
  json_ambi.foldl
    (fun acc kv => if ids.contains kv.1 then addToGroup acc kv.2 kv.1 else acc) []

/-- Model of `get_most_read_or_features` (`data.py`): the sublist of `amb_sams`
attaining the maximal count. -/
def get_most_read_or_features (amb_sams : List String) (counts : String → Nat) :
    List String :=
  let count_max := (amb_sams.map counts).foldl Nat.max 0
  amb_sams.filter (fun s => counts s = count_max)

/-- The per-group candidate choice of `solve_ambiguous_preps`: maximal read
count, narrowed to maximal feature count when several candidates tie, then
the first of the remaining list (`cur_best_samples[0]`). -/
def group_choice (g : List String) (rc fc : String → Nat) : String :=
  let cur := get_most_read_or_features g rc
  let cur := if 1 < cur.length then get_most_read_or_features cur fc else cur
  cur.headD ""

/-- The `best_samples` list of `solve_ambiguous_preps`, one choice per
inverted-map group. -/
def solve_best_samples (rev : List (String × List String)) (rc fc : String → Nat) :
    List String :=
  rev.map (fun g => group_choice g.2 rc fc)

/-- The `ids_to_keep` list of `solve_ambiguous_preps`: the chosen best
samples followed by every id whose prep-stripped root is not the root of a
chosen best sample. -/
def solve_kept_ids (json_ambi : List (String × String)) (ids : List String)
    (rc fc : String → Nat) : List String :=
  let rev := reverse_json_ambi json_ambi ids
  let best := solve_best_samples rev rc fc
  let bestRoots := best.map rsplitRoot
  best ++ ids.filter (fun i => !bestRoots.contains (rsplitRoot i))

/-- Model of `solve_ambiguous_preps` (`data.py`): filter the table to the kept ids
and drop now-empty observations. -/
def solve_ambiguous_preps (json_ambi : List (String × String)) (tab : BiomTable)
    (rc fc : String → Nat) : BiomTable :=
  removeEmptyObs (filterSamples tab (solve_kept_ids json_ambi (sampleIds tab) rc fc))

/-! ### Metadata frames -/

/-- An input metadata row (`read_meta_pd`): the normalized sample name plus
the `host_subject_id` grouping key. -/
structure MetaRow where
  sample_name : String
  host_subject_id : String
deriving Repr, DecidableEq

/-- A metadata row after `merge_read_features_counts`: the four recomputed
columns plus the joined host key (`none` models the NaN left by a right
join without a matching metadata row). -/
structure CountRow where
  sample_name : String
  qiita_prep_id : String
  read_count : Nat
  feature_count : Nat
  orig_sample_name : String
  host_subject_id : Option String
deriving Repr, DecidableEq

/-- A metadata row after `add_edit_and_working_sample_name`. -/
structure EditRow where
  sample_name : String
  qiita_prep_id : String
  read_count : Nat
  feature_count : Nat
  orig_sample_name : String
  host_subject_id : Option String
  edit_sample_name : String
  working_sample_name : String
deriving Repr, DecidableEq

/-- Model of `merge_read_features_counts` (`data.py`): rebuild the
`sample_name` / `qiita_prep_id` / `read_count` / `feature_count` /
`orig_sample_name` columns from the table's sample ids and right-join the
metadata onto them (`how='right'`, keyed by the prep-stripped name), so the
result's rows are driven by the table's ids. -/
def merge_read_features_counts (metadata : List MetaRow) (ids : List String)
    (rc fc : String → Nat) : List CountRow :=
  ids.flatMap (fun ID =>
    let ms := metadata.filter (fun r => r.sample_name = rsplitRoot ID)
    if ms.isEmpty then
      [⟨rsplitRoot ID, lastSeg ID, rc ID, fc ID, ID, none⟩]
    else
      ms.map (fun r =>
        ⟨rsplitRoot ID, lastSeg ID, rc ID, fc ID, ID, some r.host_subject_id⟩))

/-- Model of `filter_reads` (`data.py`): keep the metadata rows with
`read_count >= reads_filter`, filter the table to their full ids and drop
now-empty observations. -/
def filter_reads (metadata_counts : List CountRow) (tab : BiomTable)
    (reads_filter : Int) : BiomTable × List CountRow :=
  let metadata_filt := metadata_counts.filter
    (fun r => reads_filter ≤ (r.read_count : Int))
  let biom_tab_filt :=
    removeEmptyObs (filterSamples tab (metadata_filt.map (·.orig_sample_name)))
  (biom_tab_filt, metadata_filt)

/-- The minimum-read filter of `run_simple` (`simple.py`):
`tab.filter(lambda v, i, m: v.sum() > p_reads_filter)` — a strict
comparison on each sample column's total. -/
def simple_filter_reads (tab : BiomTable) (reads_filter : Int) : BiomTable :=
  { tab with cols := tab.cols.filter (fun c => reads_filter < (colSum c.2 : Int)) }

/-- Model of `update_sample_name` (`data.py`): when `update` is set, rewrite every
sample id to `sam.rsplit('.', 1)[0]`, unconditionally. -/
def update_sample_name (update : Bool) (biom_nodup : BiomTable) : BiomTable :=
  if update then
    { biom_nodup with cols := biom_nodup.cols.map (fun c => (rsplitRoot c.1, c.2)) }
  else biom_nodup

end Xrbfetch

namespace Xrbfetch

/-! ### `duplicates.py` -/

/-- The per-row body of the `add_edit_and_working_sample_name` loop: from
`orig_sample_name`, derive `(edit_sample_name, working_sample_name)`.
`none` models the exceptions the Python loop can raise: `IndexError` when
the id has no second dot-segment, and `ValueError` from
`int(sam_agp[:-1])`. -/
def derive_edit_working (sam : String) : Option (String × String) :=
  let segs := splitDot sam
  match segs.get? 1 with
  | none => none
  | some sam_agp =>
    if pyIsDigit sam_agp then
      some (sam, toString ((pyDigitsVal sam_agp.toList).getD 0))
    else
      let trimmed : String := ⟨sam_agp.toList.dropLast⟩
      match pyInt trimmed with
      | none => none
      | some n =>
        some ((segs.headD "") ++ "." ++ trimmed ++ "." ++ (segs.getLastD ""), toString n)

/-- Model of `add_edit_and_working_sample_name` (`duplicates.py`): extend every row
with its edit and working sample names, in row order; `none` when any row
raises. -/
def add_edit_and_working_sample_name : List CountRow → Option (List EditRow)
  | [] => some []
  | r :: rs =>
    (derive_edit_working r.orig_sample_name).bind (fun p =>
      (add_edit_and_working_sample_name rs).map (fun rest =>
        ⟨r.sample_name, r.qiita_prep_id, r.read_count, r.feature_count,
         r.orig_sample_name, r.host_subject_id, p.1, p.2⟩ :: rest))

/-- Descending (read_count, feature_count) comparison used by
`sort_values(['read_count', 'feature_count'], ascending=False)`. -/
def geReadFeat (a b : EditRow) : Prop :=
  b.read_count < a.read_count ∨
    (a.read_count = b.read_count ∧ b.feature_count ≤ a.feature_count)

instance : DecidableRel geReadFeat := fun a b => by
  unfold geReadFeat; infer_instance

instance : IsTotal EditRow geReadFeat := by
  constructor
  intro a b
  rcases Nat.lt_trichotomy a.read_count b.read_count with h | h | h
  · exact Or.inr (Or.inl h)
  · rcases Nat.le_total b.feature_count a.feature_count with h' | h'
    · exact Or.inl (Or.inr ⟨h, h'⟩)
    · exact Or.inr (Or.inr ⟨h.symm, h'⟩)
  · exact Or.inl (Or.inl h)

instance : IsTrans EditRow geReadFeat := by
  constructor
  intro a b c hab hbc
  rcases hab with h1 | ⟨h1, h1'⟩
  · rcases hbc with h2 | ⟨h2, _⟩
    · exact Or.inl (h2.trans h1)
    · exact Or.inl (h2 ▸ h1)
  · rcases hbc with h2 | ⟨h2, h2'⟩
    · exact Or.inl (h1 ▸ h2)
    · exact Or.inr ⟨h1.trans h2, h2'.trans h1'⟩

/-- The global descending sort of `keep_the_best_host_subject_id_sample`. -/
def sortReadFeatDesc (meta : List EditRow) : List EditRow :=
  List.insertionSort geReadFeat meta

/-- Model of the pandas negated `duplicated` filter on the host column: keep the first row for each
host value (pandas treats the NaN rows as one group of mutual
duplicates). -/
def dedupHost : List (Option String) → List EditRow → List EditRow
  | _, [] => []
  | seen, r :: rs =>
    if r.host_subject_id ∈ seen then dedupHost seen rs
    else r :: dedupHost (r.host_subject_id :: seen) rs

/-- Model of `keep_the_best_host_subject_id_sample` (`duplicates.py`): when every
host value occurs once the frame is returned unchanged; otherwise sort by
(read_count, feature_count) descending and keep the first row per host.
`none` models the `ValueError` of `max(...)` on an empty
`value_counts()` (empty metadata or hosts all NaN). -/
def keep_the_best_host_subject_id_sample (metadata_edit : List EditRow) :
    Option (List EditRow) :=
  let vals := metadata_edit.filterMap (·.host_subject_id)
  if vals.isEmpty then none
  else if ((vals.dedup.map (fun h => vals.count h)).foldl Nat.max 0) = 1 then
    some metadata_edit
  else
    some (dedupHost [] (sortReadFeatDesc metadata_edit))

/-- Descending feature-count comparison used by
`sort_values('feature_count', ascending=False)`. -/
def geFeat (a b : EditRow) : Prop := b.feature_count ≤ a.feature_count

instance : DecidableRel geFeat := fun a b => by
  unfold geFeat; infer_instance

/-- The per-group body of `keep_the_best_root_sample_name_sample`: rows
with maximal read_count; if several, rows with maximal feature_count among
them, sorted by feature_count descending; then the first row's
`edit_sample_name` (or `'no match'` for an empty group). -/
def best_of_root_group (rows : List EditRow) : String :=
  let maxRead := (rows.map (·.read_count)).foldl Nat.max 0
  let maxReadRows := rows.filter (fun r => r.read_count = maxRead)
  if 1 < maxReadRows.length then
    let maxFeat := (maxReadRows.map (·.feature_count)).foldl Nat.max 0
    let maxFeatRows := maxReadRows.filter (fun r => r.feature_count = maxFeat)
    (((List.insertionSort geFeat maxFeatRows).map (·.edit_sample_name)).headD "no match")
  else
    ((maxReadRows.map (·.edit_sample_name)).headD "no match")

/-- Model of `keep_the_best_root_sample_name_sample` (`duplicates.py`): group rows
by `working_sample_name`, pick one best `edit_sample_name` per group, and
keep the rows whose `edit_sample_name` is among the picks. -/
def keep_the_best_root_sample_name_sample (metadata_edit_host : List EditRow) :
    List EditRow :=
  let best_samples := (metadata_edit_host.map (·.working_sample_name)).dedup.map
    (fun w => best_of_root_group
      (metadata_edit_host.filter (fun r => r.working_sample_name = w)))
  metadata_edit_host.filter (fun r => best_samples.contains r.edit_sample_name)

/-- Model of `remove_duplicates` (`duplicates.py`): derive the edit and working
names, optionally collapse per host, always collapse per working sample
name, then filter the table to the survivors and drop empty
observations. -/
def remove_duplicates (biom_tab_filt : BiomTable) (metadata_filt : List CountRow)
    (unique : Bool) : Option (BiomTable × List EditRow) := do
  let metadata_edit ← add_edit_and_working_sample_name metadata_filt
  let metadata_host ←
    if unique then keep_the_best_host_subject_id_sample metadata_edit
    else pure metadata_edit
  let metadata_best := keep_the_best_root_sample_name_sample metadata_host
  let biom_nodup :=
    removeEmptyObs (filterSamples biom_tab_filt (metadata_best.map (·.orig_sample_name)))
  pure (biom_nodup, metadata_best)

/-! ### `checks.py` / `io.py`: early stop and scratch files -/

/-- The stop condition of `potential_stop` (`checks.py`):
`not biom_tab.shape[0] or do_stop`.  `biom.Table.shape` is
`(#observations, #samples)`, so `shape[0]` is the observation count. -/
def potential_stop_triggers (biom_tab : BiomTable) (do_stop : Bool) : Bool :=
  decide (biom_tab.obs.length = 0) || do_stop

/-- Model of the root component of `os.path.splitext` (POSIX): strip the extension after the last
dot of the basename, ignoring its leading dots. -/
def splitext_root (p : String) : String :=
  let parts := (p.toList.splitOn '/')
  let base := parts.getLastD []
  let d := (base.takeWhile (· = '.')).length
  let dotIdxs := (List.range base.length).filter (fun i => base.getD i ' ' = '.')
  let root := match dotIdxs.getLast? with
    | some i => if d ≤ i then base.take i else base
    | none => base
  ⟨List.intercalate ['/'] (parts.dropLast ++ [root])⟩

/-- The path read by `read_json_ambiguities_file` (`io.py`):
`'%s.ambiguities' % redbiom_output`. -/
def read_ambiguities_path (redbiom_output : String) : String :=
  redbiom_output ++ ".ambiguities"

/-- The paths removed by `delete_files` (`io.py`): the fetched biom file,
`'%s.ambiguities' % splitext(redbiom_output)[0]`, and the temporary
samples list. -/
def delete_files_paths (redbiom_output redbiom_samples : String) : List String :=
  [redbiom_output, splitext_root redbiom_output ++ ".ambiguities", redbiom_samples]

/-! ### Statements read off the claims, for comparison with the source -/

/-- The kept identifier set asserted by claim C2, read off the claim's
words: the per-group selected candidates together with the identifiers
whose prep-stripped root never appeared in the ambiguity map at all
(neither as a canonical value nor as the root of a raw key). -/
def claim_c2_spec_kept (json_ambi : List (String × String)) (ids : List String)
    (rc fc : String → Nat) : List String :=
  let best := solve_best_samples (reverse_json_ambi json_ambi ids) rc fc
  best ++ ids.filter (fun i =>
    !json_ambi.any (fun kv => kv.2 = rsplitRoot i || rsplitRoot kv.1 = rsplitRoot i))

/-- The identifier-format precondition asserted by claim C10, read off the
claim's words: at least two dot-separated segments, the second segment
either all digits or digits followed by exactly one trailing non-digit
character. -/
def claim_c10_precondition (sam : String) : Bool :=
  match (splitDot sam).get? 1 with
  | none => false
  | some tag =>
    pyIsDigit tag ||
      (pyIsDigit ⟨tag.toList.dropLast⟩ && !((tag.toList.getLastD '0').isDigit))

end Xrbfetch

namespace Xrbfetch

/-! ### Python `int` parsing on digit strings -/

/-- A digit character is not `int`-strippable whitespace. -/
theorem not_pySpace_of_digit {c : Char} (h : c.isDigit = true) :
    isPySpace c = false := by
  unfold isPySpace
  have h1 : c ≠ ' ' := by intro he; subst he; simp [Char.isDigit] at h
  have h2 : c ≠ '\t' := by intro he; subst he; simp [Char.isDigit] at h
  have h3 : c ≠ '\n' := by intro he; subst he; simp [Char.isDigit] at h
  have h4 : c ≠ '\r' := by intro he; subst he; simp [Char.isDigit] at h
  have h5 : c ≠ '\x0b' := by intro he; subst he; simp [Char.isDigit] at h
  have h6 : c ≠ '\x0c' := by intro he; subst he; simp [Char.isDigit] at h
  simp [h1, h2, h3, h4, h5, h6]

/-- A digit character is not the plus sign. -/
theorem digit_ne_plus {c : Char} (h : c.isDigit = true) : c ≠ '+' := by
  intro he; subst he; simp [Char.isDigit] at h

/-- A digit character is not the minus sign. -/
theorem digit_ne_minus {c : Char} (h : c.isDigit = true) : c ≠ '-' := by
  intro he; subst he; simp [Char.isDigit] at h

/-- Unfolding equation of the digit-run parser on a cons cell. -/
theorem pyDigitsAux_cons (acc : Nat) (c : Char) (rest : List Char) :
    pyDigitsAux acc (c :: rest) =
      if c.isDigit then pyDigitsAux (10 * acc + (c.toNat - 48)) rest
      else if c = '_' then
        (if (rest.headD '_').isDigit then pyDigitsAux acc rest else none)
      else none := rfl

/-- Unfolding equation of `pyDigitsVal` on a cons cell. -/
theorem pyDigitsVal_cons (c : Char) (rest : List Char) :
    pyDigitsVal (c :: rest) =
      if c.isDigit then pyDigitsAux (c.toNat - 48) rest else none := rfl

/-- The digit-run parser succeeds on all-digit input. -/
theorem pyDigitsAux_isSome_of_digits (cs : List Char)
    (h : ∀ c ∈ cs, c.isDigit = true) : ∀ acc, (pyDigitsAux acc cs).isSome := by
  induction cs with
  | nil => intro acc; rfl
  | cons c rest ih =>
    intro acc
    rw [pyDigitsAux_cons, if_pos (h c (by simp))]
    exact ih (fun c' hc' => h c' (by simp [hc'])) _

/-- Whitespace stripping fixes an all-digit string. -/
theorem pyStrip_digits (cs : List Char) (h : ∀ c ∈ cs, c.isDigit = true) :
    pyStrip cs = cs := by
  unfold pyStrip
  have h1 : cs.dropWhile isPySpace = cs := by
    cases cs with
    | nil => rfl
    | cons c rest =>
      rw [List.dropWhile_cons, not_pySpace_of_digit (h c (by simp))]
      simp
  rw [h1]
  have h2 : cs.reverse.dropWhile isPySpace = cs.reverse := by
    cases hrev : cs.reverse with
    | nil => rfl
    | cons c rest =>
      have hc : c ∈ cs := by
        rw [← List.mem_reverse, hrev]
        exact List.mem_cons_self _ _
      rw [List.dropWhile_cons, not_pySpace_of_digit (h c hc)]
      simp
  rw [h2, List.reverse_reverse]

/-- Evaluation of `pyInt` on input whose stripped form starts with a character. -/
theorem pyInt_stripped_cons (s : String) (c : Char) (rest : List Char)
    (h : pyStrip s.toList = c :: rest) :
    pyInt s =
      if c = '+' then (pyDigitsVal rest).map Int.ofNat
      else if c = '-' then (pyDigitsVal rest).map (fun n => -(Int.ofNat n))
      else (pyDigitsVal (c :: rest)).map Int.ofNat := by
  unfold pyInt
  rw [h]

/-- Python `int` succeeds on a nonempty all-digit string. -/
theorem pyInt_digits_isSome (cs : List Char) (hne : cs ≠ [])
    (h : ∀ c ∈ cs, c.isDigit = true) : (pyInt ⟨cs⟩).isSome := by
  cases cs with
  | nil => exact absurd rfl hne
  | cons c rest =>
    have hc := h c (by simp)
    have hstrip : pyStrip (String.mk (c :: rest)).toList = c :: rest := by
      rw [show (String.mk (c :: rest)).toList = c :: rest from rfl]
      exact pyStrip_digits _ h
    have hsome : (pyDigitsVal (c :: rest)).isSome := by
      rw [pyDigitsVal_cons, if_pos hc]
      exact pyDigitsAux_isSome_of_digits rest (fun c' hc' => h c' (by simp [hc'])) _
    rw [pyInt_stripped_cons _ c rest hstrip,
      if_neg (digit_ne_plus hc), if_neg (digit_ne_minus hc)]
    obtain ⟨v, hv⟩ := Option.isSome_iff_exists.mp hsome
    rw [hv]
    rfl

/-- The edit/working-name derivation of the whole frame succeeds exactly
when it succeeds on every row. -/
theorem add_edit_isSome_iff (meta : List CountRow) :
    (add_edit_and_working_sample_name meta).isSome ↔
      ∀ r ∈ meta, (derive_edit_working r.orig_sample_name).isSome := by
  induction meta with
  | nil => simp [add_edit_and_working_sample_name]
  | cons r rs ih =>
    simp only [add_edit_and_working_sample_name, List.forall_mem_cons, ← ih]
    cases hd : derive_edit_working r.orig_sample_name with
    | none => simp [hd]
    | some p =>
      cases hrest : add_edit_and_working_sample_name rs with
      | none => simp [hrest]
      | some out => simp [hrest]

/-! ### Maximum of a list of naturals (Python `max(...)`) -/

/-- Folding `Nat.max` with an arbitrary seed. -/
theorem foldl_max_seed (a : Nat) (l : List Nat) :
    l.foldl Nat.max a = Nat.max a (l.foldl Nat.max 0) := by
  induction l generalizing a with
  | nil => simp
  | cons x xs ih =>
    simp only [List.foldl_cons]
    rw [ih (Nat.max a x), ih (Nat.max 0 x)]
    simp [Nat.max_assoc]

/-- Every member is bounded by the `foldl Nat.max 0` of the list. -/
theorem le_foldl_max {l : List Nat} {x : Nat} (h : x ∈ l) :
    x ≤ l.foldl Nat.max 0 := by
  induction l with
  | nil => cases h
  | cons y ys ih =>
    simp only [List.foldl_cons]
    rw [foldl_max_seed]
    rcases List.mem_cons.mp h with rfl | hmem
    · exact le_trans (Nat.le_max_right 0 x) (Nat.le_max_left _ _)
    · exact le_trans (ih hmem) (Nat.le_max_right _ _)

/-- On a nonempty list, `foldl Nat.max 0` is attained by a member. -/
theorem foldl_max_mem : ∀ (l : List Nat), l ≠ [] → l.foldl Nat.max 0 ∈ l := by
  intro l
  induction l with
  | nil => intro h; exact absurd rfl h
  | cons y ys ih =>
    intro _
    simp only [List.foldl_cons]
    have h0 : Nat.max 0 y = y := Nat.max_eq_right (Nat.zero_le y)
    rw [foldl_max_seed, h0]
    rcases eq_or_ne ys [] with rfl | hne
    · simp
    · rcases Nat.le_total (ys.foldl Nat.max 0) y with hle | hle
      · have hmax : y.max (ys.foldl Nat.max 0) = y := Nat.max_eq_left hle
        rw [hmax]; exact List.mem_cons_self _ _
      · have hmax : y.max (ys.foldl Nat.max 0) = ys.foldl Nat.max 0 :=
          Nat.max_eq_right hle
        rw [hmax]; exact List.mem_cons_of_mem _ (ih hne)

/-! ### Properties of the per-group ambiguity selection -/

/-- Membership in `get_most_read_or_features`: exactly the candidates
attaining the maximal count. -/
theorem get_most_mem_iff (g : List String) (counts : String → Nat) (s : String) :
    s ∈ get_most_read_or_features g counts ↔
      s ∈ g ∧ counts s = (g.map counts).foldl Nat.max 0 := by
  simp [get_most_read_or_features, List.mem_filter]

/-- On a nonempty candidate list the selected subset is nonempty. -/
theorem get_most_ne_nil (g : List String) (counts : String → Nat) (h : g ≠ []) :
    get_most_read_or_features g counts ≠ [] := by
  have hmap : g.map counts ≠ [] := by
    simpa using h
  have hmem := foldl_max_mem (g.map counts) hmap
  obtain ⟨s, hs, hval⟩ := List.mem_map.mp hmem
  exact List.ne_nil_of_mem ((get_most_mem_iff g counts s).mpr ⟨hs, hval⟩)

/-- The `headD` of a nonempty list is a member. -/
theorem headD_mem {α : Type} {l : List α} (d : α) (h : l ≠ []) : l.headD d ∈ l := by
  cases l with
  | nil => exact absurd rfl h
  | cons x xs => simp

/-- Two members of a list of length at most one coincide. -/
theorem mem_eq_of_length_le_one {α : Type} {l : List α} (h : l.length ≤ 1)
    {a b : α} (ha : a ∈ l) (hb : b ∈ l) : a = b := by
  cases l with
  | nil => cases ha
  | cons x xs =>
    cases xs with
    | nil =>
      rw [List.mem_singleton] at ha hb
      rw [ha, hb]
    | cons y ys => simp at h

/-- The per-group choice of `solve_ambiguous_preps` is a member of the
group, attains the maximal read count, and, among the candidates attaining
the maximal read count, attains the maximal feature count. -/
theorem group_choice_spec (g : List String) (rc fc : String → Nat) (h : g ≠ []) :
    group_choice g rc fc ∈ g ∧
      (∀ s ∈ g, rc s ≤ rc (group_choice g rc fc)) ∧
      (∀ s ∈ g, rc s = rc (group_choice g rc fc) →
        fc s ≤ fc (group_choice g rc fc)) := by
  have h1ne := get_most_ne_nil g rc h
  by_cases hlen : 1 < (get_most_read_or_features g rc).length
  · have hchoice : group_choice g rc fc =
        (get_most_read_or_features (get_most_read_or_features g rc) fc).headD "" := by
      simp [group_choice, hlen]
    have h2ne := get_most_ne_nil (get_most_read_or_features g rc) fc h1ne
    have hmem2 : group_choice g rc fc ∈
        get_most_read_or_features (get_most_read_or_features g rc) fc := by
      rw [hchoice]; exact headD_mem _ h2ne
    have hmem1 : group_choice g rc fc ∈ get_most_read_or_features g rc :=
      ((get_most_mem_iff _ fc _).mp hmem2).1
    obtain ⟨hming, hrcmax⟩ := (get_most_mem_iff g rc _).mp hmem1
    refine ⟨hming, ?_, ?_⟩
    · intro s hs
      rw [hrcmax]
      exact le_foldl_max (List.mem_map_of_mem rc hs)
    · intro s hs hrc
      have hs1 : s ∈ get_most_read_or_features g rc :=
        (get_most_mem_iff g rc s).mpr ⟨hs, by rw [hrc, hrcmax]⟩
      have hfcmax := ((get_most_mem_iff _ fc _).mp hmem2).2
      rw [hfcmax]
      exact le_foldl_max (List.mem_map_of_mem fc hs1)
  · have hchoice : group_choice g rc fc = (get_most_read_or_features g rc).headD "" := by
      simp [group_choice, hlen]
    have hmem1 : group_choice g rc fc ∈ get_most_read_or_features g rc := by
      rw [hchoice]; exact headD_mem _ h1ne
    obtain ⟨hming, hrcmax⟩ := (get_most_mem_iff g rc _).mp hmem1
    refine ⟨hming, ?_, ?_⟩
    · intro s hs
      rw [hrcmax]
      exact le_foldl_max (List.mem_map_of_mem rc hs)
    · intro s hs hrc
      have hs1 : s ∈ get_most_read_or_features g rc :=
        (get_most_mem_iff g rc s).mpr ⟨hs, by rw [hrc, hrcmax]⟩
      have hsingle : (get_most_read_or_features g rc).length ≤ 1 := Nat.not_lt.mp hlen
      have heq : s = group_choice g rc fc :=
        mem_eq_of_length_le_one hsingle hs1 hmem1
      rw [heq]

/-- Of two candidates with different read counts, the choice is the one
with the higher read count. -/
theorem group_choice_pair_reads (a b : String) (rc fc : String → Nat)
    (h : rc a < rc b) : group_choice [a, b] rc fc = b := by
  obtain ⟨hmem, hrc, _⟩ := group_choice_spec [a, b] rc fc (by simp)
  have hcases : group_choice [a, b] rc fc = a ∨ group_choice [a, b] rc fc = b := by
    simpa using hmem
  rcases hcases with h1 | h1
  · exfalso
    have hb := hrc b (by simp)
    rw [h1] at hb
    omega
  · exact h1

/-- Of two candidates with equal read counts and different feature counts,
the choice is the one with the higher feature count. -/
theorem group_choice_pair_feats (a b : String) (rc fc : String → Nat)
    (h1 : rc a = rc b) (h2 : fc a < fc b) : group_choice [a, b] rc fc = b := by
  obtain ⟨hmem, _, hfc⟩ := group_choice_spec [a, b] rc fc (by simp)
  have hcases : group_choice [a, b] rc fc = a ∨ group_choice [a, b] rc fc = b := by
    simpa using hmem
  rcases hcases with hc | hc
  · exfalso
    have hb := hfc b (by simp) (by rw [hc, h1])
    rw [hc] at hb
    omega
  · exact hc

/-! ### Host collapse (`keep_the_best_host_subject_id_sample`) -/

/-- The relation `geReadFeat` is reflexive. -/
theorem geReadFeat_refl (r : EditRow) : geReadFeat r r :=
  Or.inr ⟨rfl, le_refl _⟩

/-- Unfolding equation of the host dedup on a cons cell. -/
theorem dedupHost_cons (seen : List (Option String)) (x : EditRow)
    (xs : List EditRow) :
    dedupHost seen (x :: xs) =
      if x.host_subject_id ∈ seen then dedupHost seen xs
      else x :: dedupHost (x.host_subject_id :: seen) xs := rfl

/-- Rows surviving the host dedup come from the input. -/
theorem dedupHost_subset :
    ∀ (l : List EditRow) (seen : List (Option String)) (r : EditRow),
      r ∈ dedupHost seen l → r ∈ l := by
  intro l
  induction l with
  | nil => intro seen r hr; cases hr
  | cons x xs ih =>
    intro seen r hr
    rw [dedupHost_cons] at hr
    by_cases hseen : x.host_subject_id ∈ seen
    · rw [if_pos hseen] at hr
      exact List.mem_cons_of_mem _ (ih seen r hr)
    · rw [if_neg hseen] at hr
      rcases List.mem_cons.mp hr with rfl | hr2
      · exact List.mem_cons_self _ _
      · exact List.mem_cons_of_mem _ (ih _ r hr2)

/-- Rows surviving the host dedup have an unseen host value. -/
theorem dedupHost_not_seen :
    ∀ (l : List EditRow) (seen : List (Option String)) (r : EditRow),
      r ∈ dedupHost seen l → r.host_subject_id ∉ seen := by
  intro l
  induction l with
  | nil => intro seen r hr; cases hr
  | cons x xs ih =>
    intro seen r hr
    rw [dedupHost_cons] at hr
    by_cases hseen : x.host_subject_id ∈ seen
    · rw [if_pos hseen] at hr
      exact ih seen r hr
    · rw [if_neg hseen] at hr
      rcases List.mem_cons.mp hr with rfl | hr2
      · exact hseen
      · intro hmem
        exact ih _ r hr2 (List.mem_cons_of_mem _ hmem)

/-- On a descending-sorted input, every survivor of the host dedup
dominates every input row with the same host value. -/
theorem dedupHost_best :
    ∀ (l : List EditRow), List.Sorted geReadFeat l →
      ∀ (seen : List (Option String)) (r : EditRow), r ∈ dedupHost seen l →
        ∀ r' ∈ l, r'.host_subject_id = r.host_subject_id → geReadFeat r r' := by
  intro l
  induction l with
  | nil => intro _ seen r hr; cases hr
  | cons x xs ih =>
    intro hs seen r hr r' hr' hhost
    have hsx : List.Sorted geReadFeat xs := hs.of_cons
    have hxall : ∀ y ∈ xs, geReadFeat x y := List.rel_of_sorted_cons hs
    rw [dedupHost_cons] at hr
    by_cases hseen : x.host_subject_id ∈ seen
    · rw [if_pos hseen] at hr
      have hnot := dedupHost_not_seen xs seen r hr
      rcases List.mem_cons.mp hr' with rfl | hr'2
      · exact absurd (hhost ▸ hseen) hnot
      · exact ih hsx seen r hr r' hr'2 hhost
    · rw [if_neg hseen] at hr
      rcases List.mem_cons.mp hr with rfl | hr2
      · rcases List.mem_cons.mp hr' with rfl | hr'2
        · exact geReadFeat_refl _
        · exact hxall r' hr'2
      · have hnot := dedupHost_not_seen xs _ r hr2
        rcases List.mem_cons.mp hr' with rfl | hr'2
        · exact absurd (List.mem_cons_self _ _)
            (fun hmem => hnot (hhost ▸ hmem))
        · exact ih hsx _ r hr2 r' hr'2 hhost

/-- How many rows with a given host value survive the host dedup: none if
the value was already seen, one if it occurs in the input, none
otherwise. -/
theorem dedupHost_filter_length :
    ∀ (l : List EditRow) (seen : List (Option String)) (v : Option String),
      ((dedupHost seen l).filter (fun r => r.host_subject_id = v)).length =
        if v ∈ seen then 0
        else if v ∈ l.map (·.host_subject_id) then 1 else 0 := by
  intro l
  induction l with
  | nil => intro seen v; simp [dedupHost]
  | cons x xs ih =>
    intro seen v
    rw [dedupHost_cons]
    by_cases hseen : x.host_subject_id ∈ seen
    · rw [if_pos hseen, ih]
      by_cases hv : v ∈ seen
      · simp [hv]
      · have hvx : v ≠ x.host_subject_id := by
          intro he
          exact hv (by rw [he]; exact hseen)
        simp [hv, List.mem_cons, hvx]
    · rw [if_neg hseen]
      by_cases hvx : x.host_subject_id = v
      · subst hvx
        have hd : (decide (x.host_subject_id = x.host_subject_id)) = true := by simp
        rw [List.filter_cons, hd, if_pos rfl, List.length_cons, ih]
        rw [if_pos (List.mem_cons_self _ _), if_neg hseen,
          if_pos (show x.host_subject_id ∈ (x :: xs).map (·.host_subject_id) from by
            simp [List.mem_cons])]
      · have hvxne : v ≠ x.host_subject_id := fun he => hvx he.symm
        rw [List.filter_cons]
        have hxv : (decide (x.host_subject_id = v)) = false := by simp [hvx]
        rw [hxv]
        simp only [Bool.false_eq_true, if_false]
        rw [ih]
        have hv1 : (v ∈ x.host_subject_id :: seen) ↔ (v ∈ seen) := by
          simp [List.mem_cons, hvxne]
        have hv2 : (v ∈ (x :: xs).map (·.host_subject_id)) ↔
            (v ∈ xs.map (·.host_subject_id)) := by
          simp [List.mem_cons, hvxne]
        by_cases hv : v ∈ seen
        · rw [if_pos (hv1.mpr hv), if_pos hv]
        · rw [if_neg (fun hmem => hv (hv1.mp hmem)), if_neg hv]
          by_cases hvm : v ∈ xs.map (·.host_subject_id)
          · rw [if_pos hvm, if_pos (hv2.mpr hvm)]
          · rw [if_neg hvm, if_neg (fun hmem => hvm (hv2.mp hmem))]

/-- The multiplicity of a host value equals the number of rows carrying
it. -/
theorem filterMap_host_count (l : List EditRow) (h : String) :
    (l.filterMap (·.host_subject_id)).count h =
      (l.filter (fun r => r.host_subject_id = some h)).length := by
  induction l with
  | nil => simp
  | cons x xs ih =>
    cases hx : x.host_subject_id with
    | none =>
      rw [List.filterMap_cons, hx, List.filter_cons]
      simp [hx, ih]
    | some y =>
      rw [List.filterMap_cons, hx, List.filter_cons]
      by_cases hy : y = h
      · subst hy
        simp [hx, ih, List.count_cons]
      · simp [hx, ih, List.count_cons, hy, Option.some_inj]

/-- The host collapse either passes the frame through (every host
multiplicity is one) or returns the sorted-and-deduplicated frame. -/
theorem keep_host_cases (meta out : List EditRow)
    (h : keep_the_best_host_subject_id_sample meta = some out) :
    (out = meta ∧ meta.filterMap (·.host_subject_id) ≠ [] ∧
      ∀ h' ∈ meta.filterMap (·.host_subject_id),
        (meta.filterMap (·.host_subject_id)).count h' ≤ 1) ∨
    out = dedupHost [] (sortReadFeatDesc meta) := by
  simp only [keep_the_best_host_subject_id_sample] at h
  by_cases hemp : (meta.filterMap (·.host_subject_id)).isEmpty = true
  · rw [if_pos hemp] at h
    cases h
  · rw [if_neg hemp] at h
    by_cases hmax : (((meta.filterMap (·.host_subject_id)).dedup.map
        (fun h => (meta.filterMap (·.host_subject_id)).count h)).foldl Nat.max 0) = 1
    · rw [if_pos hmax] at h
      left
      refine ⟨(Option.some.inj h).symm, ?_, ?_⟩
      · intro hnil
        exact hemp (by rw [hnil]; rfl)
      · intro h' hmem
        have hd : h' ∈ (meta.filterMap (·.host_subject_id)).dedup :=
          List.mem_dedup.mpr hmem
        have hc : (meta.filterMap (·.host_subject_id)).count h' ∈
            (meta.filterMap (·.host_subject_id)).dedup.map
              (fun h => (meta.filterMap (·.host_subject_id)).count h) :=
          List.mem_map_of_mem _ hd
        have := le_foldl_max hc
        omega
    · rw [if_neg hmax] at h
      exact Or.inr (Option.some.inj h).symm

/-- When every host value occurs at most once (and some row has a host
value), the host collapse is the identity. -/
theorem keep_host_pass (meta : List EditRow)
    (hne : meta.filterMap (·.host_subject_id) ≠ [])
    (hcount : ∀ h, (meta.filterMap (·.host_subject_id)).count h ≤ 1) :
    keep_the_best_host_subject_id_sample meta = some meta := by
  simp only [keep_the_best_host_subject_id_sample]
  rw [if_neg (by simp [hne]), if_pos ?_]
  have hdne : (meta.filterMap (·.host_subject_id)).dedup ≠ [] := by
    simp [List.dedup_eq_nil, hne]
  have hall : ∀ e ∈ (meta.filterMap (·.host_subject_id)).dedup.map
      (fun h => (meta.filterMap (·.host_subject_id)).count h), e = 1 := by
    intro e he
    obtain ⟨h', hmem, hval⟩ := List.mem_map.mp he
    have h1 : 0 < (meta.filterMap (·.host_subject_id)).count h' :=
      List.count_pos_iff.mpr (List.mem_dedup.mp hmem)
    have h2 := hcount h'
    omega
  have hmapne : (meta.filterMap (·.host_subject_id)).dedup.map
      (fun h => (meta.filterMap (·.host_subject_id)).count h) ≠ [] := by
    simp [hdne]
  have := foldl_max_mem _ hmapne
  exact hall _ this

/-- C6: the host collapse keeps, for every host value present, exactly one
row — a row of the input whose read count is maximal in its host group
and whose feature count is maximal among the group's max-read rows; when
every host value occurs at most once the metadata passes through
unmodified; and on the spec's three-row example exactly rows 2 and 3
survive. -/
theorem claim_c6_host_collapse :
    (keep_the_best_host_subject_id_sample
        [⟨"1", "p", 1, 1, "1", some "a", "1", "1"⟩,
         ⟨"2", "p", 2, 1, "2", some "a", "2", "2"⟩,
         ⟨"3", "p", 1, 1, "3", some "b", "3", "3"⟩] =
      some [⟨"2", "p", 2, 1, "2", some "a", "2", "2"⟩,
            ⟨"3", "p", 1, 1, "3", some "b", "3", "3"⟩]) ∧
      (∀ meta : List EditRow, meta.filterMap (·.host_subject_id) ≠ [] →
        (∀ h, (meta.filterMap (·.host_subject_id)).count h ≤ 1) →
        keep_the_best_host_subject_id_sample meta = some meta) ∧
      (∀ meta out : List EditRow,
        keep_the_best_host_subject_id_sample meta = some out →
        (∀ r ∈ out, r ∈ meta) ∧
          (∀ h : String, h ∈ meta.filterMap (·.host_subject_id) →
            (out.filter (fun r => r.host_subject_id = some h)).length = 1) ∧
          (∀ r ∈ out, ∀ h : String, r.host_subject_id = some h →
            ∀ r' ∈ meta, r'.host_subject_id = some h →
              r'.read_count ≤ r.read_count ∧
                (r'.read_count = r.read_count →
                  r'.feature_count ≤ r.feature_count))) := by
  refine ⟨by decide, keep_host_pass, ?_⟩
  intro meta out hkeep
  have hsorted : List.Sorted geReadFeat (sortReadFeatDesc meta) :=
    List.sorted_insertionSort geReadFeat meta
  have hsortmem : ∀ r : EditRow, r ∈ sortReadFeatDesc meta ↔ r ∈ meta := by
    intro r
    exact List.mem_insertionSort geReadFeat
  rcases keep_host_cases meta out hkeep with ⟨rfl, _, hcount⟩ | rfl
  · refine ⟨fun r hr => hr, ?_, ?_⟩
    · intro h hmem
      rw [← filterMap_host_count]
      have h1 : 0 < (out.filterMap (·.host_subject_id)).count h :=
        List.count_pos_iff.mpr hmem
      have h2 := hcount h hmem
      omega
    · intro r hr h hhost r' hr' hhost'
      have hflt : (out.filter (fun r => r.host_subject_id = some h)).length ≤ 1 := by
        rw [← filterMap_host_count]
        exact hcount h (by
          exact List.mem_filterMap.mpr ⟨r, hr, hhost⟩)
      have hrin : r ∈ out.filter (fun r => r.host_subject_id = some h) :=
        List.mem_filter.mpr ⟨hr, by simp [hhost]⟩
      have hrin' : r' ∈ out.filter (fun r => r.host_subject_id = some h) :=
        List.mem_filter.mpr ⟨hr', by simp [hhost']⟩
      have heq : r' = r := mem_eq_of_length_le_one hflt hrin' hrin
      rw [heq]
      exact ⟨le_refl _, fun _ => le_refl _⟩
  · refine ⟨?_, ?_, ?_⟩
    · intro r hr
      exact (hsortmem r).mp (dedupHost_subset _ _ _ hr)
    · intro h hmem
      rw [dedupHost_filter_length]
      rw [if_neg (List.not_mem_nil _)]
      obtain ⟨r, hrmem, hrhost⟩ := List.mem_filterMap.mp hmem
      rw [if_pos (List.mem_map.mpr ⟨r, (hsortmem r).mpr hrmem, hrhost⟩)]
    · intro r hr h hhost r' hr' hhost'
      have hge : geReadFeat r r' :=
        dedupHost_best _ hsorted [] r hr r' ((hsortmem r').mpr hr')
          (by rw [hhost', hhost])
      rcases hge with hlt | ⟨heq, hfle⟩
      · exact ⟨le_of_lt hlt, fun heq2 => by omega⟩
      · exact ⟨le_of_eq heq.symm, fun _ => hfle⟩

/-- C6 (witness): the collapse applied to a singleton frame (pass-through
branch), and the general properties extracted at the three-row example. -/
theorem claim_c6_witness :
    keep_the_best_host_subject_id_sample
        [⟨"3", "p", 1, 1, "3", some "b", "3", "3"⟩] =
      some [⟨"3", "p", 1, 1, "3", some "b", "3", "3"⟩] ∧
      (⟨"2", "p", 2, 1, "2", some "a", "2", "2"⟩ : EditRow) ∈
        [⟨"1", "p", 1, 1, "1", some "a", "1", "1"⟩,
         ⟨"2", "p", 2, 1, "2", some "a", "2", "2"⟩,
         ⟨"3", "p", 1, 1, "3", some "b", "3", "3"⟩] ∧
      ([(⟨"2", "p", 2, 1, "2", some "a", "2", "2"⟩ : EditRow),
        ⟨"3", "p", 1, 1, "3", some "b", "3", "3"⟩].filter
          (fun r => r.host_subject_id = some "a")).length = 1 := by
  obtain ⟨hconc, hpass, hgen⟩ := claim_c6_host_collapse
  obtain ⟨hsub, hcnt, _⟩ := hgen _ _ hconc
  refine ⟨?_, ?_, ?_⟩
  · exact hpass _ (by decide) (fun h' => List.count_le_length _ _)
  · exact hsub _ (by decide)
  · exact hcnt "a" (by decide)

/-- Success of the name derivation for one identifier, characterized. -/
theorem derive_edit_working_isSome_iff (sam tag : String)
    (h : (splitDot sam).get? 1 = some tag) :
    (derive_edit_working sam).isSome ↔
      pyIsDigit tag = true ∨ (pyInt ⟨tag.toList.dropLast⟩).isSome := by
  simp only [derive_edit_working, h]
  by_cases hd : pyIsDigit tag
  · simp [hd]
  · cases hp : pyInt ⟨tag.toList.dropLast⟩ with
    | none => simp [hd, hp]
    | some n => simp [hd, hp]

/-! ### Claim theorems -/

/-- C1: for every canonical group with at least one candidate present in
the table, membership in `get_most_read_or_features` is exactly attaining
the maximal count; the per-group choice is in the group, attains the
maximal read count, and attains the maximal feature count among the
candidates tying on read count; in particular, of two candidates with
equal read counts the higher-feature-count one is kept and of two with
different read counts the higher-read-count one is kept; and
`solve_ambiguous_preps`'s best-sample list applies this choice to every
group of the inverted ambiguity map. -/
theorem claim_c1_ambiguity_selection :
    (∀ (g : List String) (rc : String → Nat) (s : String),
      s ∈ get_most_read_or_features g rc ↔
        s ∈ g ∧ rc s = (g.map rc).foldl Nat.max 0) ∧
    (∀ (g : List String) (rc fc : String → Nat), g ≠ [] →
      group_choice g rc fc ∈ g ∧
        (∀ s ∈ g, rc s ≤ rc (group_choice g rc fc)) ∧
        (∀ s ∈ g, rc s = rc (group_choice g rc fc) →
          fc s ≤ fc (group_choice g rc fc))) ∧
    (∀ (a b : String) (rc fc : String → Nat), rc a = rc b → fc a < fc b →
      group_choice [a, b] rc fc = b) ∧
    (∀ (a b : String) (rc fc : String → Nat), rc a < rc b →
      group_choice [a, b] rc fc = b) ∧
    (∀ (rev : List (String × List String)) (rc fc : String → Nat),
      solve_best_samples rev rc fc =
        rev.map (fun gr => group_choice gr.2 rc fc)) :=
  ⟨get_most_mem_iff, group_choice_spec, group_choice_pair_feats,
   group_choice_pair_reads, fun _ _ _ => rfl⟩

/-- C1 (witness): the selection evaluated on the spec's concrete examples
— different read counts, equal read counts with different feature counts,
and a singleton group. -/
theorem claim_c1_witness :
    group_choice ["a.1.57016", "a.1.58862"]
        (fun s => if s = "a.1.58862" then 2 else 1) (fun _ => 1) = "a.1.58862" ∧
      group_choice ["a.1.57016", "a.1.58862"] (fun _ => 1)
        (fun s => if s = "a.1.58862" then 2 else 1) = "a.1.58862" ∧
      group_choice ["a.1.57016"] (fun _ => 1) (fun _ => 1) ∈ ["a.1.57016"] := by
  refine ⟨?_, ?_, ?_⟩
  · exact claim_c1_ambiguity_selection.2.2.2.1 _ _ _ _ (by decide)
  · exact claim_c1_ambiguity_selection.2.2.1 _ _ _ _ (by decide) (by decide)
  · exact (claim_c1_ambiguity_selection.2.1 _ _ _ (by decide)).1

/-- C7: identifier parsing for the root-sample collapse maps the
letter-suffixed identifier `"1.01A.1"` to working sample name `1` and the
plain identifier `"1.01.1"` to the same working sample name, with
`edit_sample_name` equal to `"1.01.1"` in both cases. -/
theorem claim_c7_identifier_parsing :
    add_edit_and_working_sample_name
        [⟨"1.01", "1", 5, 2, "1.01A.1", some "h"⟩,
         ⟨"1.01", "1", 4, 2, "1.01.1", some "h"⟩] =
      some
        [⟨"1.01", "1", 5, 2, "1.01A.1", some "h", "1.01.1", "1"⟩,
         ⟨"1.01", "1", 4, 2, "1.01.1", some "h", "1.01.1", "1"⟩] := by
  decide

/-- C10 (counterexample): `"a.-12.1"` violates the claimed identifier
precondition (its tag `"-12"` is neither all digits nor digits followed by
one trailing non-digit), yet the name-derivation step does not raise: it
produces working sample name `"-1"`, because Python's `int` accepts the
sign-prefixed trimmed tag `"-1"`. -/
theorem claim_c10_counterexample :
    claim_c10_precondition "a.-12.1" = false ∧
      add_edit_and_working_sample_name [⟨"a.-12", "1", 3, 1, "a.-12.1", some "h"⟩] =
        some [⟨"a.-12", "1", 3, 1, "a.-12.1", some "h", "a.-1.1", "-1"⟩] := by
  decide

/-- C8: the early-stop check of `potential_stop` tests `shape[0]`, the
observation count, not the sample count: a table with one observation and
zero samples does not trigger the stop, while a table with zero
observations and one sample does; and `delete_files` deletes
`splitext(output)[0] + '.ambiguities'`, which differs from the
`output + '.ambiguities'` path that `read_json_ambiguities_file` actually
reads, so the ambiguities scratch file is not the one deleted. -/
theorem claim_c8_stop_and_cleanup_bug :
    sampleIds ⟨["f"], []⟩ = [] ∧
      potential_stop_triggers ⟨["f"], []⟩ false = false ∧
      potential_stop_triggers ⟨[], [("s", [])]⟩ false = true ∧
      delete_files_paths "out.biom" "sams.tmp" =
        ["out.biom", "out.ambiguities", "sams.tmp"] ∧
      read_ambiguities_path "out.biom" = "out.biom.ambiguities" ∧
      ("out.ambiguities" : String) ≠ "out.biom.ambiguities" := by
  decide

/-- C9 (counterexample): with identifier normalization on, the two distinct
sample identifiers `"a.1.1"` and `"a.1.2"` are both rewritten to `"a.1"`;
the normalizer performs no collision check and returns a table whose
sample-id list contains the duplicate, silently. -/
theorem claim_c9_counterexample :
    sampleIds (update_sample_name true ⟨["f"], [("a.1.1", [1]), ("a.1.2", [2])]⟩) =
      ["a.1", "a.1"] ∧ ("a.1.1" : String) ≠ "a.1.2" := by
  decide

/-- C9 (amended): the identifier normalizer performs no collision
detection: it unconditionally rewrites every sample id to its
prep-stripped root, whether or not two distinct ids collide on the same
root. -/
theorem claim_c9_amended (t : BiomTable) :
    sampleIds (update_sample_name true t) = (sampleIds t).map rsplitRoot := by
  simp [update_sample_name, sampleIds, List.map_map]

/-- C10 (amended): under the claimed identifier-format precondition the
error branch of the name derivation is unreachable (the derivation
succeeds); in general, for an identifier with a second dot-segment, the
derivation succeeds exactly when the segment is all digits or the segment
with its last character dropped parses as a Python integer literal — so
identifiers with a two-trailing-letter or fully non-numeric tag raise, but
a violating identifier whose trimmed tag is a signed integer literal does
not; and the whole-frame derivation succeeds exactly when every row
does. -/
theorem claim_c10_amended :
    (∀ sam : String, claim_c10_precondition sam = true →
      (derive_edit_working sam).isSome) ∧
      (∀ sam tag : String, (splitDot sam).get? 1 = some tag →
        ((derive_edit_working sam).isSome ↔
          pyIsDigit tag = true ∨ (pyInt ⟨tag.toList.dropLast⟩).isSome)) ∧
      (∀ meta : List CountRow, (add_edit_and_working_sample_name meta).isSome ↔
        ∀ r ∈ meta, (derive_edit_working r.orig_sample_name).isSome) := by
  refine ⟨?_, derive_edit_working_isSome_iff, add_edit_isSome_iff⟩
  intro sam hpre
  unfold claim_c10_precondition at hpre
  cases hseg : (splitDot sam).get? 1 with
  | none => rw [hseg] at hpre; simp at hpre
  | some tag =>
    rw [hseg] at hpre
    rw [derive_edit_working_isSome_iff sam tag hseg]
    by_cases hd : pyIsDigit tag
    · exact Or.inl hd
    · right
      simp only [hd, Bool.false_or, Bool.and_eq_true] at hpre
      have h2 := hpre.1
      unfold pyIsDigit at h2
      simp only [Bool.and_eq_true, Bool.not_eq_true', List.isEmpty_eq_false,
        List.all_eq_true] at h2
      have htl : (String.mk tag.toList.dropLast).toList = tag.toList.dropLast := rfl
      rw [htl] at h2
      exact pyInt_digits_isSome _ h2.1 h2.2

/-- C10 (amended, witness): the derivation at the letter-suffixed
identifier satisfying the precondition, the characterization at a
two-letter tag, and the whole-frame derivation on a singleton frame. -/
theorem claim_c10_amended_witness :
    (derive_edit_working "1.01A.1").isSome ∧
      ((derive_edit_working "a.xy.1").isSome ↔
        pyIsDigit "xy" = true ∨ (pyInt ⟨"xy".toList.dropLast⟩).isSome) ∧
      ((add_edit_and_working_sample_name
          [⟨"1.01", "1", 5, 2, "1.01A.1", some "h"⟩]).isSome ↔
        ∀ r ∈ [(⟨"1.01", "1", 5, 2, "1.01A.1", some "h"⟩ : CountRow)],
          (derive_edit_working r.orig_sample_name).isSome) := by
  refine ⟨?_, ?_, ?_⟩
  · exact claim_c10_amended.1 "1.01A.1" (by decide)
  · exact claim_c10_amended.2.1 "a.xy.1" "xy" (by decide)
  · exact claim_c10_amended.2.2 _

/-- C2 (counterexample): with ambiguity map `{"a.1.5" ↦ "a.1"}` and the
table containing only `"a.1.7"`, the map's sole key is absent from the
table, so no candidate is selected; the root `"a.1"` of `"a.1.7"` appears
in the ambiguity map, so the claim says `"a.1.7"` is dropped — but the code
keeps it, because it only drops ids whose root is the root of a selected
candidate. -/
theorem claim_c2_counterexample :
    solve_kept_ids [("a.1.5", "a.1")] ["a.1.7"] (fun _ => 0) (fun _ => 0) =
        ["a.1.7"] ∧
      claim_c2_spec_kept [("a.1.5", "a.1")] ["a.1.7"] (fun _ => 0) (fun _ => 0) =
        [] := by
  decide

/-- C2 (amended): after ambiguity resolution the kept identifiers are
exactly the per-group selected candidates together with the identifiers
whose prep-stripped root is not the root of any selected candidate. -/
theorem claim_c2_amended (json_ambi : List (String × String)) (ids : List String)
    (rc fc : String → Nat) (i : String) :
    i ∈ solve_kept_ids json_ambi ids rc fc ↔
      i ∈ solve_best_samples (reverse_json_ambi json_ambi ids) rc fc ∨
        (i ∈ ids ∧ rsplitRoot i ∉
          (solve_best_samples (reverse_json_ambi json_ambi ids) rc fc).map
            rsplitRoot) := by
  simp [solve_kept_ids, List.mem_filter]

/-- C3 (counterexample): a sample whose read count equals the threshold is
kept by the full pipeline's `filter_reads` but dropped by the simple
variant's filter, which uses a strict comparison — so the filter is not
inclusive in both variants. -/
theorem claim_c3_counterexample :
    (filter_reads [⟨"a.1", "x", 2, 1, "a.1.x", some "h"⟩]
          ⟨["f"], [("a.1.x", [2])]⟩ 2).2 =
        [⟨"a.1", "x", 2, 1, "a.1.x", some "h"⟩] ∧
      sampleIds (filter_reads [⟨"a.1", "x", 2, 1, "a.1.x", some "h"⟩]
          ⟨["f"], [("a.1.x", [2])]⟩ 2).1 = ["a.1.x"] ∧
      simple_filter_reads ⟨["f"], [("a.1.x", [2])]⟩ 2 = ⟨["f"], []⟩ := by
  decide

/-- Reading a list back through `getD` over its index range is the
identity. -/
theorem map_getD_range {α : Type} (l : List α) (d : α) :
    (List.range l.length).map (fun j => l.getD j d) = l := by
  apply List.ext_getElem
  · simp
  · intro i h1 h2
    rw [List.getElem_map, List.getElem_range, List.getD_eq_getElem l d h2]

/-- Reading `getD` through a `map`, inside the list's range. -/
theorem getD_map_of_lt {α β : Type} (f : α → β) (l : List α) (j : Nat) (d : α)
    (d' : β) (h : j < l.length) : (l.map f).getD j d' = f (l.getD j d) := by
  rw [List.getD_eq_getElem _ _ (by simpa using h), List.getD_eq_getElem l d h,
    List.getElem_map]

/-- Mapping a function that fixes every member is the identity. -/
theorem list_map_eq_self {α : Type} {l : List α} {f : α → α}
    (h : ∀ a ∈ l, f a = a) : l.map f = l := by
  conv_rhs => rw [← List.map_id l]
  exact List.map_congr_left h

/-- After `remove_empty(axis='observation')` every observation index has a
nonzero entry in some column. -/
theorem removeEmptyObs_all_nonzero (t : BiomTable) (j : Nat)
    (h : j < (keepIdxs t).length) :
    (removeEmptyObs t).cols.any (fun c => c.2.getD j 0 != 0) = true := by
  have hmem : (keepIdxs t).getD j 0 ∈ keepIdxs t := by
    rw [List.getD_eq_getElem _ 0 h]
    exact List.getElem_mem _
  have hprop : t.cols.any (fun c => c.2.getD ((keepIdxs t).getD j 0) 0 != 0) = true :=
    List.of_mem_filter (p := fun i => t.cols.any fun c => c.2.getD i 0 != 0) hmem
  show ((t.cols.map fun c => (c.1, (keepIdxs t).map fun i => c.2.getD i 0)).any
      fun c => c.2.getD j 0 != 0) = true
  rw [List.any_map]
  rw [List.any_eq_true] at hprop ⊢
  obtain ⟨c, hc, hcval⟩ := hprop
  refine ⟨c, hc, ?_⟩
  show (((keepIdxs t).map fun i => c.2.getD i 0).getD j 0 != 0) = true
  rw [getD_map_of_lt (fun i => c.2.getD i 0) (keepIdxs t) j 0 0 h]
  exact hcval

/-- The index-keep list of an already-swept table is its full range. -/
theorem keepIdxs_removeEmptyObs (t : BiomTable) :
    keepIdxs (removeEmptyObs t) = List.range (keepIdxs t).length := by
  have hlen : (removeEmptyObs t).obs.length = (keepIdxs t).length := by
    simp [removeEmptyObs]
  rw [keepIdxs, hlen]
  apply List.filter_eq_self.mpr
  intro j hj
  exact removeEmptyObs_all_nonzero t j (List.mem_range.mp hj)

/-- Dropping empty observations is idempotent. -/
theorem removeEmptyObs_idem (t : BiomTable) :
    removeEmptyObs (removeEmptyObs t) = removeEmptyObs t := by
  have h1 : (List.range (keepIdxs t).length).map
      (fun j => (removeEmptyObs t).obs.getD j "") = (removeEmptyObs t).obs := by
    have hlen : (removeEmptyObs t).obs.length = (keepIdxs t).length := by
      simp [removeEmptyObs]
    rw [← hlen]
    exact map_getD_range _ _
  have h2 : (removeEmptyObs t).cols.map
      (fun c => (c.1, (List.range (keepIdxs t).length).map
        (fun j => c.2.getD j 0))) = (removeEmptyObs t).cols := by
    apply list_map_eq_self
    intro c hc
    have hclen : c.2.length = (keepIdxs t).length := by
      simp only [removeEmptyObs, List.mem_map] at hc
      obtain ⟨c0, _, rfl⟩ := hc
      simp
    rw [← hclen, map_getD_range]
  show BiomTable.mk
      ((keepIdxs (removeEmptyObs t)).map (fun j => (removeEmptyObs t).obs.getD j ""))
      ((removeEmptyObs t).cols.map (fun c =>
        (c.1, (keepIdxs (removeEmptyObs t)).map (fun j => c.2.getD j 0)))) =
      removeEmptyObs t
  rw [keepIdxs_removeEmptyObs, h1, h2]

/-- Filtering to a superset of the present sample ids is the identity. -/
theorem filterSamples_eq_self (t : BiomTable) (keep : List String)
    (h : ∀ c ∈ t.cols, keep.contains c.1) : filterSamples t keep = t := by
  cases t with
  | mk obs cols =>
    show BiomTable.mk obs (cols.filter fun c => keep.contains c.1) = BiomTable.mk obs cols
    rw [List.filter_eq_self.mpr h]

/-- The function `filter_reads`, written out. -/
theorem filter_reads_eq (meta : List CountRow) (tab : BiomTable) (θ : Int) :
    filter_reads meta tab θ =
      (removeEmptyObs (filterSamples tab
        ((meta.filter (fun r => θ ≤ (r.read_count : Int))).map (·.orig_sample_name))),
       meta.filter (fun r => θ ≤ (r.read_count : Int))) := rfl

/-- C4: the minimum-read filter is idempotent — running `filter_reads` on
its own output, with the same threshold, returns that output unchanged. -/
theorem claim_c4_filter_idempotent (meta : List CountRow) (tab : BiomTable)
    (θ : Int) :
    filter_reads (filter_reads meta tab θ).2 (filter_reads meta tab θ).1 θ =
      filter_reads meta tab θ := by
  rw [filter_reads_eq meta tab θ]
  have hm : (meta.filter (fun r => θ ≤ (r.read_count : Int))).filter
      (fun r => θ ≤ (r.read_count : Int)) =
      meta.filter (fun r => θ ≤ (r.read_count : Int)) := by
    apply List.filter_eq_self.mpr
    intro r hr
    exact (List.mem_filter.mp hr).2
  rw [filter_reads_eq, hm]
  have hsub : ∀ c ∈ (removeEmptyObs (filterSamples tab
      ((meta.filter (fun r => θ ≤ (r.read_count : Int))).map
        (·.orig_sample_name)))).cols,
      ((meta.filter (fun r => θ ≤ (r.read_count : Int))).map
        (·.orig_sample_name)).contains c.1 := by
    intro c hc
    simp only [removeEmptyObs, filterSamples, List.mem_map] at hc
    obtain ⟨c0, hc0, rfl⟩ := hc
    exact (List.mem_filter.mp hc0).2
  rw [filterSamples_eq_self _ _ hsub, removeEmptyObs_idem]

/-- C3 (amended): the full pipeline's minimum-read filter keeps exactly the
metadata rows with `read_count ≥ threshold` (inclusive), while the simple
variant keeps exactly the sample columns with total count strictly greater
than the threshold. -/
theorem claim_c3_amended (meta : List CountRow) (tab : BiomTable) (θ : Int) :
    (∀ r, r ∈ (filter_reads meta tab θ).2 ↔ r ∈ meta ∧ θ ≤ (r.read_count : Int)) ∧
      (∀ c, c ∈ (simple_filter_reads tab θ).cols ↔
        c ∈ tab.cols ∧ θ < (colSum c.2 : Int)) := by
  constructor
  · intro r
    simp [filter_reads, List.mem_filter]
  · intro c
    simp [simple_filter_reads, List.mem_filter]

/-! ### Row/column consistency across the pipeline stages -/

/-- Dropping empty observations does not change the sample ids. -/
theorem sampleIds_removeEmptyObs (t : BiomTable) :
    sampleIds (removeEmptyObs t) = sampleIds t := by
  simp [sampleIds, removeEmptyObs, List.map_map]

/-- Normalizing rewrites every sample id to its prep-stripped root. -/
theorem sampleIds_update_true (t : BiomTable) :
    sampleIds (update_sample_name true t) = (sampleIds t).map rsplitRoot := by
  simp [update_sample_name, sampleIds, List.map_map]

/-- Membership in the ids of a sample-filtered table. -/
theorem mem_sampleIds_filterSamples (t : BiomTable) (keep : List String)
    (x : String) :
    x ∈ sampleIds (filterSamples t keep) ↔ x ∈ sampleIds t ∧ x ∈ keep := by
  simp only [sampleIds, filterSamples, List.mem_map, List.mem_filter]
  constructor
  · rintro ⟨c, ⟨hc, hk⟩, rfl⟩
    exact ⟨⟨c, hc, rfl⟩, by simpa [List.elem_iff] using hk⟩
  · rintro ⟨⟨c, hc, rfl⟩, hx⟩
    exact ⟨c, ⟨hc, by simpa [List.elem_iff] using hx⟩, rfl⟩

/-- Filtering a table to a name list drawn from its own ids, then dropping
empty observations, leaves exactly those names as sample ids. -/
theorem ids_filter_table (t : BiomTable) (names : List String)
    (hsub : ∀ n ∈ names, n ∈ sampleIds t) (x : String) :
    x ∈ sampleIds (removeEmptyObs (filterSamples t names)) ↔ x ∈ names := by
  rw [sampleIds_removeEmptyObs, mem_sampleIds_filterSamples]
  exact ⟨fun h => h.2, fun h => ⟨hsub x h, h⟩⟩

/-- Every merged row's full id comes from the table and its sample name is
the prep-stripped root of its full id. -/
theorem mem_merge (metadata : List MetaRow) (ids : List String)
    (rc fc : String → Nat) (x : CountRow)
    (h : x ∈ merge_read_features_counts metadata ids rc fc) :
    x.orig_sample_name ∈ ids ∧
      x.sample_name = rsplitRoot x.orig_sample_name := by
  simp only [merge_read_features_counts, List.mem_flatMap] at h
  obtain ⟨ID, hID, hx⟩ := h
  by_cases hms : (metadata.filter (fun r => r.sample_name = rsplitRoot ID)).isEmpty
  · rw [if_pos hms] at hx
    rw [List.mem_singleton] at hx
    subst hx
    exact ⟨hID, rfl⟩
  · rw [if_neg hms] at hx
    obtain ⟨r, _, rfl⟩ := List.mem_map.mp hx
    exact ⟨hID, rfl⟩

/-- Every table id is the full id of some merged row (the right join is
driven by the table's ids). -/
theorem merge_covers (metadata : List MetaRow) (ids : List String)
    (rc fc : String → Nat) (ID : String) (hID : ID ∈ ids) :
    ∃ x ∈ merge_read_features_counts metadata ids rc fc,
      x.orig_sample_name = ID := by
  by_cases hms : (metadata.filter (fun r => r.sample_name = rsplitRoot ID)).isEmpty
  · refine ⟨⟨rsplitRoot ID, lastSeg ID, rc ID, fc ID, ID, none⟩, ?_, rfl⟩
    simp only [merge_read_features_counts, List.mem_flatMap]
    exact ⟨ID, hID, by rw [if_pos hms]; exact List.mem_singleton.mpr rfl⟩
  · have hne : (metadata.filter (fun r => r.sample_name = rsplitRoot ID)) ≠ [] := by
      intro hnil
      exact hms (by rw [hnil]; rfl)
    obtain ⟨r, hr⟩ := List.exists_mem_of_ne_nil _ hne
    refine ⟨⟨rsplitRoot ID, lastSeg ID, rc ID, fc ID, ID,
      some r.host_subject_id⟩, ?_, rfl⟩
    simp only [merge_read_features_counts, List.mem_flatMap]
    exact ⟨ID, hID, by rw [if_neg hms]; exact List.mem_map_of_mem _ hr⟩

/-- Rows produced by the edit/working-name derivation inherit the full id
and the sample name of an input row. -/
theorem add_edit_mem :
    ∀ (meta : List CountRow) (out : List EditRow),
      add_edit_and_working_sample_name meta = some out →
      ∀ r ∈ out, ∃ r0 ∈ meta,
        r.orig_sample_name = r0.orig_sample_name ∧
          r.sample_name = r0.sample_name := by
  intro meta
  induction meta with
  | nil =>
    intro out h r hr
    have h2 : some ([] : List EditRow) = some out := h
    rw [← Option.some.inj h2] at hr
    cases hr
  | cons r0 rs ih =>
    intro out h r hr
    have h' : (derive_edit_working r0.orig_sample_name).bind (fun p =>
        (add_edit_and_working_sample_name rs).map (fun rest =>
          (⟨r0.sample_name, r0.qiita_prep_id, r0.read_count, r0.feature_count,
            r0.orig_sample_name, r0.host_subject_id, p.1, p.2⟩ : EditRow) ::
            rest)) = some out := h
    cases hd : derive_edit_working r0.orig_sample_name with
    | none => rw [hd] at h'; simp at h'
    | some p =>
      rw [hd] at h'
      cases hrest : add_edit_and_working_sample_name rs with
      | none => rw [hrest] at h'; simp at h'
      | some outrs =>
        rw [hrest] at h'
        have h2 : some ((⟨r0.sample_name, r0.qiita_prep_id, r0.read_count,
            r0.feature_count, r0.orig_sample_name, r0.host_subject_id,
            p.1, p.2⟩ : EditRow) :: outrs) = some out := h'
        rw [← Option.some.inj h2] at hr
        rcases List.mem_cons.mp hr with rfl | hmem
        · exact ⟨r0, List.mem_cons_self _ _, rfl, rfl⟩
        · obtain ⟨r1, h1, he⟩ := ih outrs hrest r hmem
          exact ⟨r1, List.mem_cons_of_mem _ h1, he⟩

/-- The root-sample collapse keeps a sublist of its input rows. -/
theorem keep_root_subset (l : List EditRow) :
    ∀ r ∈ keep_the_best_root_sample_name_sample l, r ∈ l := by
  intro r hr
  simp only [keep_the_best_root_sample_name_sample] at hr
  exact (List.mem_filter.mp hr).1

/-- The host collapse keeps a sublist of its input rows. -/
theorem keep_host_subset (meta out : List EditRow)
    (h : keep_the_best_host_subject_id_sample meta = some out) :
    ∀ r ∈ out, r ∈ meta := by
  rcases keep_host_cases meta out h with ⟨rfl, _, _⟩ | rfl
  · exact fun r hr => hr
  · intro r hr
    have := dedupHost_subset _ _ _ hr
    simpa [sortReadFeatDesc] using this

/-- The result of `remove_duplicates`, destructured: the intermediate frames and the
final table and metadata it returns. -/
theorem remove_duplicates_eq (tab : BiomTable) (meta : List CountRow)
    (unique : Bool) (tabD : BiomTable) (metaD : List EditRow)
    (h : remove_duplicates tab meta unique = some (tabD, metaD)) :
    ∃ mE mH : List EditRow,
      add_edit_and_working_sample_name meta = some mE ∧
        (if unique then keep_the_best_host_subject_id_sample mE
          else pure mE) = some mH ∧
        metaD = keep_the_best_root_sample_name_sample mH ∧
        tabD = removeEmptyObs (filterSamples tab
          (metaD.map (·.orig_sample_name))) := by
  unfold remove_duplicates at h
  cases hE : add_edit_and_working_sample_name meta with
  | none => rw [hE] at h; cases h
  | some mE =>
    rw [hE] at h
    cases unique with
    | false =>
      have h2 : some
          (removeEmptyObs (filterSamples tab
            ((keep_the_best_root_sample_name_sample mE).map (·.orig_sample_name))),
           keep_the_best_root_sample_name_sample mE) = some (tabD, metaD) := h
      have hpair := Option.some.inj h2
      rw [Prod.mk.injEq] at hpair
      refine ⟨mE, mE, rfl, rfl, hpair.2.symm, ?_⟩
      rw [← hpair.2]
      exact hpair.1.symm
    | true =>
      have h' : (keep_the_best_host_subject_id_sample mE).bind (fun y =>
          some (removeEmptyObs (filterSamples tab
            ((keep_the_best_root_sample_name_sample y).map (·.orig_sample_name))),
           keep_the_best_root_sample_name_sample y)) = some (tabD, metaD) := h
      cases hH : keep_the_best_host_subject_id_sample mE with
      | none => rw [hH] at h'; simp at h'
      | some mH =>
        rw [hH] at h'
        have h2 : some
            (removeEmptyObs (filterSamples tab
              ((keep_the_best_root_sample_name_sample mH).map (·.orig_sample_name))),
             keep_the_best_root_sample_name_sample mH) = some (tabD, metaD) := h'
        have hpair := Option.some.inj h2
        rw [Prod.mk.injEq] at hpair
        refine ⟨mE, mH, rfl, hH, hpair.2.symm, ?_⟩
        rw [← hpair.2]
        exact hpair.1.symm

/-- Every surviving row of `remove_duplicates` inherits the full id and
the sample name of an input row. -/
theorem remove_duplicates_mem (tab : BiomTable) (meta : List CountRow)
    (unique : Bool) (tabD : BiomTable) (metaD : List EditRow)
    (h : remove_duplicates tab meta unique = some (tabD, metaD)) :
    ∀ r ∈ metaD, ∃ r0 ∈ meta,
      r.orig_sample_name = r0.orig_sample_name ∧
        r.sample_name = r0.sample_name := by
  obtain ⟨mE, mH, hE, hH, hmD, _⟩ := remove_duplicates_eq tab meta unique tabD metaD h
  intro r hr
  have h1 : r ∈ mH := keep_root_subset _ r (hmD ▸ hr)
  have h2 : r ∈ mE := by
    cases unique with
    | true =>
      rw [if_pos rfl] at hH
      exact keep_host_subset mE mH hH r h1
    | false =>
      rw [if_neg (by simp)] at hH
      rw [← Option.some.inj hH] at h1
      exact h1
  exact add_edit_mem meta mE hE r h2

/-- C5 (amended): after the count merge, the metadata's full-identifier
(`orig_sample_name`) set equals the table's sample-id set; the
minimum-read filter and the duplicate resolution each preserve that
equality; and after identifier normalization the table's sample-id set
equals the metadata's normalized `sample_name` set (the full ids with the
preparation segment stripped) — there is no single metadata column whose
value set equals the table's ids at every stage, because normalization
rewrites the table's ids but not the metadata's full ids. -/
theorem claim_c5_amended (metadata : List MetaRow) (tab : BiomTable)
    (rc fc : String → Nat) (θ : Int) (unique : Bool)
    (tabF tabD : BiomTable) (metaF : List CountRow) (metaD : List EditRow)
    (hfilt : (tabF, metaF) =
      filter_reads (merge_read_features_counts metadata (sampleIds tab) rc fc)
        tab θ)
    (hdup : remove_duplicates tabF metaF unique = some (tabD, metaD)) :
    (∀ x, x ∈ (merge_read_features_counts metadata (sampleIds tab) rc
        fc).map (·.orig_sample_name) ↔ x ∈ sampleIds tab) ∧
      (∀ x, x ∈ sampleIds tabF ↔ x ∈ metaF.map (·.orig_sample_name)) ∧
      (∀ x, x ∈ sampleIds tabD ↔ x ∈ metaD.map (·.orig_sample_name)) ∧
      (∀ x, x ∈ sampleIds (update_sample_name true tabD) ↔
        x ∈ metaD.map (·.sample_name)) := by
  have hstage1 : ∀ x, x ∈ (merge_read_features_counts metadata (sampleIds tab)
      rc fc).map (·.orig_sample_name) ↔ x ∈ sampleIds tab := by
    intro x
    constructor
    · intro hx
      obtain ⟨r, hr, rfl⟩ := List.mem_map.mp hx
      exact (mem_merge metadata _ rc fc r hr).1
    · intro hx
      obtain ⟨r, hr, horig⟩ := merge_covers metadata _ rc fc x hx
      exact List.mem_map.mpr ⟨r, hr, horig⟩
  rw [filter_reads_eq, Prod.mk.injEq] at hfilt
  have hmetaF : metaF = (merge_read_features_counts metadata (sampleIds tab)
      rc fc).filter (fun r => θ ≤ (r.read_count : Int)) := hfilt.2
  have htabF : tabF = removeEmptyObs (filterSamples tab
      (metaF.map (·.orig_sample_name))) := by
    rw [hfilt.1, hmetaF]
  have hsubF : ∀ n ∈ metaF.map (·.orig_sample_name), n ∈ sampleIds tab := by
    intro n hn
    obtain ⟨r, hr, rfl⟩ := List.mem_map.mp hn
    rw [hmetaF] at hr
    exact (mem_merge metadata _ rc fc r (List.mem_filter.mp hr).1).1
  have hstage2 : ∀ x, x ∈ sampleIds tabF ↔ x ∈ metaF.map (·.orig_sample_name) := by
    intro x
    rw [htabF]
    exact ids_filter_table tab _ hsubF x
  have hchain := remove_duplicates_mem tabF metaF unique tabD metaD hdup
  have hsubD : ∀ n ∈ metaD.map (·.orig_sample_name), n ∈ sampleIds tabF := by
    intro n hn
    obtain ⟨r, hr, rfl⟩ := List.mem_map.mp hn
    obtain ⟨r0, hr0, horig, _⟩ := hchain r hr
    rw [horig]
    exact (hstage2 _).mpr (List.mem_map.mpr ⟨r0, hr0, rfl⟩)
  have htabD : tabD = removeEmptyObs (filterSamples tabF
      (metaD.map (·.orig_sample_name))) := by
    obtain ⟨mE, mH, _, _, _, ht⟩ :=
      remove_duplicates_eq tabF metaF unique tabD metaD hdup
    exact ht
  have hstage3 : ∀ x, x ∈ sampleIds tabD ↔ x ∈ metaD.map (·.orig_sample_name) := by
    intro x
    rw [htabD]
    exact ids_filter_table tabF _ hsubD x
  have hname : ∀ r ∈ metaD, r.sample_name = rsplitRoot r.orig_sample_name := by
    intro r hr
    obtain ⟨r0, hr0, horig, hsam⟩ := hchain r hr
    rw [hmetaF] at hr0
    have := (mem_merge metadata _ rc fc r0 (List.mem_filter.mp hr0).1).2
    rw [hsam, horig, this]
  have hstage4 : ∀ x, x ∈ sampleIds (update_sample_name true tabD) ↔
      x ∈ metaD.map (·.sample_name) := by
    intro x
    rw [sampleIds_update_true]
    constructor
    · intro hx
      obtain ⟨i, hi, rfl⟩ := List.mem_map.mp hx
      obtain ⟨r, hr, rfl⟩ := List.mem_map.mp ((hstage3 i).mp hi)
      exact List.mem_map.mpr ⟨r, hr, hname r hr⟩
    · intro hx
      obtain ⟨r, hr, rfl⟩ := List.mem_map.mp hx
      refine List.mem_map.mpr ⟨r.orig_sample_name, ?_, (hname r hr).symm⟩
      exact (hstage3 _).mpr (List.mem_map.mpr ⟨r, hr, rfl⟩)
  exact ⟨hstage1, hstage2, hstage3, hstage4⟩

/-- C5 (counterexample): a one-sample pipeline run in which, after
identifier normalization, the table's sample ids (`["a.1"]`) differ from
the metadata's full-identifier set (`["a.1.5"]`), while before
normalization the table's ids (`["a.1.5"]`) differ from the metadata's
normalized `sample_name` set (`["a.1"]`) — so no single metadata
identifier column matches the table at every stage, refuting the claim as
stated. -/
theorem claim_c5_counterexample :
    remove_duplicates
        (filter_reads (merge_read_features_counts [⟨"a.1", "h"⟩]
          (sampleIds ⟨["f"], [("a.1.5", [3])]⟩) (fun _ => 3) (fun _ => 1))
          ⟨["f"], [("a.1.5", [3])]⟩ 0).1
        (filter_reads (merge_read_features_counts [⟨"a.1", "h"⟩]
          (sampleIds ⟨["f"], [("a.1.5", [3])]⟩) (fun _ => 3) (fun _ => 1))
          ⟨["f"], [("a.1.5", [3])]⟩ 0).2 false =
      some (⟨["f"], [("a.1.5", [3])]⟩,
        [⟨"a.1", "5", 3, 1, "a.1.5", some "h", "a.1.5", "1"⟩]) ∧
      sampleIds (update_sample_name true ⟨["f"], [("a.1.5", [3])]⟩) = ["a.1"] ∧
      ([(⟨"a.1", "5", 3, 1, "a.1.5", some "h", "a.1.5", "1"⟩ : EditRow)].map
        (·.orig_sample_name)) = ["a.1.5"] ∧
      sampleIds ⟨["f"], [("a.1.5", [3])]⟩ = ["a.1.5"] ∧
      ([(⟨"a.1", "5", 3, 1, "a.1.5", some "h", "a.1.5", "1"⟩ : EditRow)].map
        (·.sample_name)) = ["a.1"] ∧
      (["a.1"] : List String) ≠ ["a.1.5"] := by
  decide

/-- C5 (amended, witness): the stage equalities instantiated on the
concrete one-sample run. -/
theorem claim_c5_amended_witness :
    ("a.1" ∈ sampleIds (update_sample_name true ⟨["f"], [("a.1.5", [3])]⟩) ↔
      "a.1" ∈ ([(⟨"a.1", "5", 3, 1, "a.1.5", some "h", "a.1.5", "1"⟩ :
        EditRow)].map (·.sample_name))) ∧
      ("a.1.5" ∈ sampleIds (⟨["f"], [("a.1.5", [3])]⟩ : BiomTable) ↔
        "a.1.5" ∈ ([(⟨"a.1", "5", 3, 1, "a.1.5", some "h", "a.1.5", "1"⟩ :
          EditRow)].map (·.orig_sample_name))) := by
  have h := claim_c5_amended [⟨"a.1", "h"⟩] ⟨["f"], [("a.1.5", [3])]⟩
    (fun _ => 3) (fun _ => 1) 0 false
    ⟨["f"], [("a.1.5", [3])]⟩ ⟨["f"], [("a.1.5", [3])]⟩
    [⟨"a.1", "5", 3, 1, "a.1.5", some "h"⟩]
    [⟨"a.1", "5", 3, 1, "a.1.5", some "h", "a.1.5", "1"⟩]
    (by decide) (by decide)
  exact ⟨h.2.2.2 "a.1", h.2.2.1 "a.1.5"⟩

end Xrbfetch
